import Mathlib

/-!
Verification of the gitsage commit-partitioning engine.

Shallow embedding of the TypeScript sources:
  - `src/modules/ai/openai.ts`     (diff chunker, classifier boundary)
  - `src/modules/commit/commit.ts` (command gateway, patch validator,
                                    selective stager, commit writer,
                                    file-selection prompt)
  - `src/modules/commit/analyze.ts` (partition orchestrator)

JavaScript strings are modelled as Lean `String` / `List Char`; string
length counts Unicode scalar values (the sources only ever compare
lengths of ASCII-dominated diff text, where the two notions agree).
External effects (the shell, the filesystem, the git index, the OpenAI
call, the interactive prompt) are modelled as explicit oracle
parameters, so each embedded function is total and deterministic given
the oracle.
-/

namespace Gitsage

/-! ## Diff chunker (`splitDiffIntoChunks`, openai.ts lines 21-39) -/

/-- Model of JavaScript `diff.split("\n")` on a character list: split at
every newline, keeping empty segments (so the empty input yields one
empty line, as in JS). -/
def splitNl : List Char → List (List Char)
  | [] => [[]]
  | c :: cs =>
    if c = '\n' then [] :: splitNl cs
    else
      match splitNl cs with
      | [] => [[c]]
      | l :: ls => (c :: l) :: ls

/-- Join a list of lines, terminating every line with a newline
(the chunker appends `line + "\n"` for each consumed line). -/
def unlines (ls : List (List Char)) : List Char :=
  ls.flatMap (fun l => l ++ ['\n'])

/-- Truthiness of JavaScript `s.trim()`: a string is truthy after
trimming exactly when it contains a non-whitespace character. -/
def hasContent (l : List Char) : Bool :=
  l.any (fun c => !c.isWhitespace)

/-- Core loop of `splitDiffIntoChunks`: `cur` is `currentChunk`, the
remaining lines are consumed one at a time.  When the already
accumulated length plus the next line's length exceeds `maxChunkSize`,
the accumulated chunk is pushed and the line starts a fresh chunk; the
final chunk is kept only if `currentChunk.trim()` is truthy. -/
def chunkLoop (maxChunkSize : Nat) : List Char → List (List Char) → List (List Char)
  | cur, [] => if hasContent cur then [cur] else []
  | cur, l :: ls =>
    if cur.length + l.length > maxChunkSize then
      cur :: chunkLoop maxChunkSize (l ++ ['\n']) ls
    else
      chunkLoop maxChunkSize (cur ++ l ++ ['\n']) ls

/-- Embedding of `splitDiffIntoChunks(diff, maxChunkSize)`
(openai.ts lines 21-39). -/
def splitDiffIntoChunks (diff : String) (maxChunkSize : Nat) : List String :=
  (chunkLoop maxChunkSize [] (splitNl diff.data)).map fun c => ⟨c⟩

/-! ## JSON string serialization

Model of the JavaScript host primitives `JSON.stringify` (restricted to
string arguments) and `JSON.parse` (restricted to string literals),
which `createCommit` and `promptFileSelection` use for escaping.
`JSON.stringify` escapes the quote, the backslash, the five named
control characters, and every other control character below U+0020 as a
lowercase `\u00xx` escape; `JSON.parse` undoes exactly these (plus the
optional `\/`), and rejects raw control characters, bad escapes,
unterminated literals, and trailing input. -/

/-- Lowercase hexadecimal digit for `n < 16`. -/
def hexDigitChar (n : Nat) : Char :=
  if n < 10 then Char.ofNat (48 + n) else Char.ofNat (87 + n)

/-- Escape one character the way `JSON.stringify` quotes string
contents. -/
def jsonEscapeChar (c : Char) : List Char :=
  if c = '"' then ['\\', '"']
  else if c = '\\' then ['\\', '\\']
  else if c = '\x08' then ['\\', 'b']
  else if c = '\x0c' then ['\\', 'f']
  else if c = '\n' then ['\\', 'n']
  else if c = '\x0d' then ['\\', 'r']
  else if c = '\t' then ['\\', 't']
  else if c.toNat < 32 then
    ['\\', 'u', '0', '0', hexDigitChar (c.toNat / 16), hexDigitChar (c.toNat % 16)]
  else [c]

/-- Model of `JSON.stringify(s)` for a string `s`: the escaped contents
wrapped in double quotes. -/
def jsonQuote (s : String) : String :=
  ⟨'"' :: (s.data.flatMap jsonEscapeChar ++ ['"'])⟩

/-- Value of a hexadecimal digit character, accepting both cases. -/
def fromHexDigit (c : Char) : Option Nat :=
  if '0' ≤ c ∧ c ≤ '9' then some (c.toNat - 48)
  else if 'a' ≤ c ∧ c ≤ 'f' then some (c.toNat - 87)
  else if 'A' ≤ c ∧ c ≤ 'F' then some (c.toNat - 55)
  else none

/-- Decoded character for a single-character JSON escape sequence. -/
def decodeEscape (e : Char) : Option Char :=
  if e = '"' then some '"'
  else if e = '\\' then some '\\'
  else if e = '/' then some '/'
  else if e = 'b' then some '\x08'
  else if e = 'f' then some '\x0c'
  else if e = 'n' then some '\n'
  else if e = 'r' then some '\x0d'
  else if e = 't' then some '\t'
  else none

/-- Value of a four-digit hexadecimal escape payload. -/
def decodeHex4 (h1 h2 h3 h4 : Char) : Option Nat :=
  match fromHexDigit h1, fromHexDigit h2, fromHexDigit h3, fromHexDigit h4 with
  | some a, some b, some c, some d => some (((a * 16 + b) * 16 + c) * 16 + d)
  | _, _, _, _ => none

/-- Parse the body of a JSON string literal (everything after the
opening quote), requiring the closing quote to end the input, as
`JSON.parse` does for a top-level string. -/
def jsonStringBody : List Char → Option (List Char)
  | [] => none
  | c :: rest =>
    if c = '"' then if rest.isEmpty then some [] else none
    else if c = '\\' then
      match rest with
      | [] => none
      | e :: rest2 =>
        if e = 'u' then
          match rest2 with
          | h1 :: h2 :: h3 :: h4 :: rest3 =>
            match decodeHex4 h1 h2 h3 h4 with
            | some n => (jsonStringBody rest3).map (Char.ofNat n :: ·)
            | none => none
          | _ => none
        else
          match decodeEscape e with
          | some d => (jsonStringBody rest2).map (d :: ·)
          | none => none
    else if c.toNat < 32 then none
    else (jsonStringBody rest).map (c :: ·)

/-- Model of `JSON.parse(s)` applied to a JSON string literal; `none`
models the thrown `SyntaxError`. -/
def jsonParseString (s : String) : Option String :=
  match s.data with
  | c :: rest => if c = '"' then (jsonStringBody rest).map fun cs => (⟨cs⟩ : String) else none
  | [] => none

/-! ## Command gateway (`runCommand`, commit.ts lines 112-119) -/

/-- Outcome of one `execSync` call: normal stdout text, or a raised
error carrying its `message` field. -/
inductive ExecOutcome where
  | ok (stdout : String)
  | thrown (message : String)

/-- Embedding of `runCommand(cmd)`: returns trimmed stdout on success;
the catch block logs the failure and returns `error.message` (it does
not re-throw and does not return the empty string). -/
def runCommand (exec : String → ExecOutcome) (cmd : String) : String :=
  match exec cmd with
  | .ok out => out.trim
  | .thrown msg => msg

/-! ## Commit writer (`createCommit`, commit.ts lines 278-285) -/

/-- Model of `.replace(/"/g, '\\"')`: every double-quote character is
replaced by a backslash followed by a quote. -/
def escapeQuotes (s : String) : String :=
  ⟨s.data.flatMap fun c => if c = '"' then ['\\', '"'] else [c]⟩

/-- The `safeMessage` local of `createCommit`:
`JSON.stringify(`${type}: ${message}`).replace(/"/g, '\\"')`. -/
def safeMessage (ctype message : String) : String :=
  escapeQuotes (jsonQuote (ctype ++ ": " ++ message))

/-- The command text `createCommit` hands to the gateway:
`git commit -m "${safeMessage}"`. -/
def createCommitCmd (ctype message : String) : String :=
  "git commit -m \"" ++ safeMessage ctype message ++ "\""

/-- The commit invocation inside `createCommit`: the gateway runs the
commit command; the returned text is the gateway's result (the call
always returns normally because `runCommand` catches). -/
def createCommitInvoke (exec : String → ExecOutcome) (ctype message : String) : String :=
  runCommand exec (createCommitCmd ctype message)

/-! ## POSIX-shell word splitting

Model of how `/bin/sh` (invoked by `execSync`) splits a command line
into argv words: blanks separate words, double quotes group, inside
double quotes a backslash escapes only `"` `\` `$` and the backquote,
single quotes group verbatim.  Commands requiring expansion (an
unescaped `$` or backquote) or with unterminated quotes are rejected
(`none`), keeping the model honest on inputs it does not cover. -/

inductive ShMode where
  | normal
  | inDouble
  | inSingle

/-- Backquote character, U+0060. -/
def backquote : Char := '\x60'

def shellSplit : List Char → ShMode → List Char → Bool → List (List Char) →
    Option (List (List Char))
  | [], .normal, cur, started, acc => some (acc ++ if started then [cur] else [])
  | [], .inDouble, _, _, _ => none
  | [], .inSingle, _, _, _ => none
  | c :: rest, .normal, cur, started, acc =>
    if c = ' ' ∨ c = '\t' then
      if started then shellSplit rest .normal [] false (acc ++ [cur])
      else shellSplit rest .normal [] false acc
    else if c = '"' then shellSplit rest .inDouble cur true acc
    else if c = '\'' then shellSplit rest .inSingle cur true acc
    else if c = '\\' then
      match rest with
      | [] => none
      | e :: rest2 => shellSplit rest2 .normal (cur ++ [e]) true acc
    else if c = '$' ∨ c = backquote then none
    else shellSplit rest .normal (cur ++ [c]) true acc
  | c :: rest, .inDouble, cur, _, acc =>
    if c = '"' then shellSplit rest .normal cur true acc
    else if c = '\\' then
      match rest with
      | [] => none
      | e :: rest2 =>
        if e = '"' ∨ e = '\\' ∨ e = '$' ∨ e = backquote then
          shellSplit rest2 .inDouble (cur ++ [e]) true acc
        else shellSplit rest2 .inDouble (cur ++ ['\\', e]) true acc
    else if c = '$' ∨ c = backquote then none
    else shellSplit rest .inDouble (cur ++ [c]) true acc
  | c :: rest, .inSingle, cur, _, acc =>
    if c = '\'' then shellSplit rest .normal cur true acc
    else shellSplit rest .inSingle (cur ++ [c]) true acc

/-- Argv words the shell derives from a command string. -/
def shellFields (cmd : String) : Option (List String) :=
  (shellSplit cmd.data .normal [] false []).map fun ws => ws.map fun w => (⟨w⟩ : String)

/-! ## File-selection prompt (`promptFileSelection` and
`getFileStatusEmoji`, commit.ts lines 128-139 and 294-307) -/

/-- Embedding of `getFileStatusEmoji(status)`: the `statusMap` lookup
with `'❓'` as the `||` fallback. -/
def getFileStatusEmoji (status : String) : String :=
  if status = "M" then "📝"
  else if status = "D" then "🗑️"
  else if status = "U" then "➕"
  else if status = "A" then "✅"
  else if status = "R" then "🔄"
  else if status = "C" then "📋"
  else if status = "?" then "❓"
  else "❓"

/-- One entry of the `allChanges` argument. -/
structure FileChange where
  name : String
  value : String
  status : String
deriving DecidableEq

/-- One inquirer choice: displayed text and the machine value. -/
structure PromptChoice where
  label : String
  value : String
deriving DecidableEq

/-- The choices array built by `promptFileSelection`: label is emoji
plus name, value is `JSON.stringify(file.value)`. -/
def fileChoices (allChanges : List FileChange) : List PromptChoice :=
  allChanges.map fun f =>
    ⟨getFileStatusEmoji f.status ++ " " ++ f.name, jsonQuote f.value⟩

/-- Embedding of `promptFileSelection(allChanges)`: the interactive
selector `pick` (inquirer) returns the `value` strings of the chosen
choices; the function maps `JSON.parse` back over them.  A `none`
result models a thrown `JSON.parse` error. -/
def promptFileSelection (allChanges : List FileChange)
    (pick : List PromptChoice → List String) : Option (List String) :=
  (pick (fileChoices allChanges)).mapM jsonParseString

/-! ## Partition orchestrator (`analyzeAndCommit`, analyze.ts lines
105-226)

The git index is modelled as the list of paths with staged entries, in
staging order.  `GitEnv` is the oracle for the git behaviors the code
observes: whether a path exists in the working tree (`existsSync`),
and whether `git add` / `git rm` on a path leaves a staged entry for
it. -/

/-- One classifier-proposed commit group `{type, message, hunks}`. -/
structure CommitGroup where
  ctype : String
  message : String
  hunks : List String
deriving DecidableEq

/-- One issued commit: its type, message, and the staged paths it
consumed. -/
structure CommitRec where
  ctype : String
  message : String
  files : List String
deriving DecidableEq

structure GitEnv where
  fileExists : String → Bool
  addStages : String → Bool
  rmStages : String → Bool

/-- Suffix of `l` after the first occurrence of the pattern `pat`
(the lazy group-1 of the header regex stops at the first ` b/`). -/
def afterSubstr (pat : List Char) : List Char → Option (List Char)
  | [] => none
  | c :: cs =>
    if pat.isPrefixOf (c :: cs) then some ((c :: cs).drop pat.length)
    else afterSubstr pat cs

/-- Match of one line against `/^diff --git a\/(.*?) b\/(.*?)$/`,
returning the `b` path: the line must start with `diff --git a/` and
contain ` b/`; the lazy first group ends at the first ` b/` and the
second group runs to the end of the line. -/
def parseDiffHeaderLine (line : List Char) : Option (List Char) :=
  if ("diff --git a/".data).isPrefixOf line then
    afterSubstr (" b/".data) (line.drop 13)
  else none

/-- Insertion preserving first-occurrence order, as a JavaScript `Set`
iterates. -/
def insertPath (idx : List String) (f : String) : List String :=
  if f ∈ idx then idx else idx ++ [f]

/-- Embedding of the hunk scan in `analyzeAndCommit` (analyze.ts lines
178-188): run the header regex over every line of every hunk and
collect the unique `b` paths in first-occurrence order. -/
def extractFilePaths (hunks : List String) : List String :=
  let paths := hunks.flatMap fun h => (splitNl h.data).filterMap parseDiffHeaderLine
  (paths.foldl (fun acc p => if p ∈ acc then acc else acc ++ [p]) []).map
    fun p => (⟨p⟩ : String)

/-- Staging one path (analyze.ts lines 196-212): `git add` if the file
exists in the working tree, else `git rm` for the deletion; either
leaves a staged entry when the oracle says so, and failures are caught
and only logged. -/
def stageFile (env : GitEnv) (idx : List String) (f : String) : List String :=
  if env.fileExists f then
    if env.addStages f then insertPath idx f else idx
  else
    if env.rmStages f then insertPath idx f else idx

/-- Effect of `git restore --staged .` on the index: every staged
entry is unstaged. -/
def restoreStaged (_ : List String) : List String := []

/-- Effect of the pre-loop `git reset` (analyze.ts line 164): the
index is cleared. -/
def gitResetIndex (_ : List String) : List String := []

/-- Body of one loop iteration after the `git restore --staged .`
(analyze.ts lines 173-222): skip on empty hunks, skip when no paths
resolve, stage each resolved path, skip when the index stayed empty,
otherwise commit (consuming the index). -/
def stagePhase (env : GitEnv) (idx : List String) (g : CommitGroup) :
    List String × Option CommitRec :=
  if g.hunks.isEmpty then (idx, none)
  else
    let files := extractFilePaths g.hunks
    if files.isEmpty then (idx, none)
    else
      let staged := files.foldl (stageFile env) idx
      if staged.isEmpty then (staged, none)
      else ([], some ⟨g.ctype, g.message, staged⟩)

/-- One full loop iteration: `git restore --staged .` then the staging
phase. -/
def processGroup (env : GitEnv) (idx : List String) (g : CommitGroup) :
    List String × Option CommitRec :=
  stagePhase env (restoreStaged idx) g

/-- The `for (const {type, message, hunks} of commitGroups)` loop,
threading the index and collecting the issued commits in order. -/
def commitLoop (env : GitEnv) (idx : List String) : List CommitGroup → List CommitRec
  | [] => []
  | g :: gs =>
    match processGroup env idx g with
    | (idx2, none) => commitLoop env idx2 gs
    | (idx2, some c) => c :: commitLoop env idx2 gs

/-- The index contents observed at each group's staging entry, i.e.
right after that iteration's `git restore --staged .`. -/
def commitLoopEntries (env : GitEnv) (idx : List String) :
    List CommitGroup → List (List String)
  | [] => []
  | g :: gs => restoreStaged idx :: commitLoopEntries env (processGroup env idx g).1 gs

/-- The commit one group produces when processed from a clean index. -/
def groupCommit (env : GitEnv) (g : CommitGroup) : Option CommitRec :=
  (stagePhase env [] g).2

/-- The confirmed tail of `analyzeAndCommit`: `git reset` (line 164)
then the commit loop. -/
def confirmedCommitPhase (env : GitEnv) (idx : List String) (groups : List CommitGroup) :
    List CommitRec :=
  commitLoop env (gitResetIndex idx) groups

/-- The orchestrator's commit output: zero groups abort with a warning
before confirmation (analyze.ts lines 137-140), a declined
confirmation aborts (lines 158-161), otherwise the commit loop runs. -/
def orchestratorCommits (env : GitEnv) (idx : List String) (groups : List CommitGroup)
    (confirm : Bool) : List CommitRec :=
  if groups.isEmpty then []
  else if !confirm then []
  else confirmedCommitPhase env idx groups

/-- Concrete oracle for witnesses: every path exists and every staging
command leaves a staged entry. -/
def exampleEnv : GitEnv :=
  ⟨fun _ => true, fun _ => true, fun _ => true⟩

/-- Concrete group with one hunk that resolves to `p.ts`. -/
def exampleGroupA : CommitGroup :=
  ⟨"feat", "add parser", ["diff --git a/p.ts b/p.ts\nindex 1..2 100644\n--- a/p.ts\n+++ b/p.ts"]⟩

/-- Concrete group with no hunks, which the loop must skip. -/
def exampleGroupB : CommitGroup :=
  ⟨"chore", "noop", []⟩

/-! ## Patch validator and selective stager (`validatePatch` and
`stageFilesForCommit`, commit.ts lines 203-269)

`FsState` carries the index and the set of existing temporary patch
files; `PatchEnv` is the oracle for `Date.now()`, for whether
`writeFileSync` succeeds (a throw is caught in `validatePatch` and
logged in `stageFilesForCommit`), for the exit status of
`git apply --check` / `git apply --cached` on a patch text, and for
the index contents a successful cached apply produces. -/

structure PatchEnv where
  now : Nat
  writeOk : String → Bool
  applyCheckOk : String → Bool
  applyCachedOk : String → Bool
  applyPatchTo : String → List String → List String

structure FsState where
  index : List String
  tempFiles : List String
deriving DecidableEq

/-- Name of `validatePatch`'s temporary file,
`.temp-${Date.now()}.patch` (the `tmpdir()` prefix is elided). -/
def tempCheckName (env : PatchEnv) : String :=
  ".temp-" ++ toString env.now ++ ".patch"

/-- Name of `stageFilesForCommit`'s temporary file,
`git-patch-${Date.now()}.patch`. -/
def tempApplyName (env : PatchEnv) : String :=
  "git-patch-" ++ toString env.now ++ ".patch"

/-- Embedding of `validatePatch(patchContent)` (commit.ts lines
203-239): write the candidate to a temp file (a failed write is caught
and yields `false`), dry-run `git apply --check` (which never mutates
the index), catch any throw as `false`, and in `finally` delete the
temp file if it exists. -/
def validatePatch (env : PatchEnv) (st : FsState) (patchContent : String) :
    Bool × FsState :=
  let tmp := tempCheckName env
  if env.writeOk tmp then
    (env.applyCheckOk patchContent,
      { st with tempFiles := (insertPath st.tempFiles tmp).erase tmp })
  else
    (false, { st with tempFiles := st.tempFiles.erase tmp })

/-- Embedding of `stageFilesForCommit(hunks)` (commit.ts lines
245-269): return on empty hunks; join the hunks with newlines;
abort without touching the index when validation fails; otherwise
write the second temp file and `git apply --cached` it (a throw is
caught and logged, leaving the index unchanged), deleting the temp
file in `finally`. -/
def stageFilesForCommit (env : PatchEnv) (st : FsState) (hunks : List String) : FsState :=
  if hunks.isEmpty then st
  else
    let patchContent := String.intercalate "\n" hunks
    let r := validatePatch env st patchContent
    if !r.1 then r.2
    else
      let st1 := r.2
      let tmp := tempApplyName env
      if env.writeOk tmp then
        { index :=
            if env.applyCachedOk patchContent then env.applyPatchTo patchContent st1.index
            else st1.index,
          tempFiles := (insertPath st1.tempFiles tmp).erase tmp }
      else
        { st1 with tempFiles := st1.tempFiles.erase tmp }

/-- Concrete patch-environment for witnesses: writes succeed, the
dry-run check fails, timestamps are `7`. -/
def examplePatchEnv : PatchEnv :=
  ⟨7, fun _ => true, fun _ => false, fun _ => true, fun _ i => i⟩

/-! ## Classifier boundary (`processGitDiff`, openai.ts lines 136-163) -/

/-- Dynamic JavaScript value produced by `JSON.parse`. -/
inductive JSValue where
  | null
  | bool (b : Bool)
  | num (n : Int)
  | str (s : String)
  | arr (xs : List JSValue)
  | obj (fields : List (String × JSValue))

/-- Outcome of the `openai.chat.completions.create` call: a thrown
error, or a response whose `message.content` may be `null`. -/
inductive ChatOutcome where
  | threw (message : String)
  | responded (content : Option String)

/-- Embedding of the response handling in `processGitDiff` (openai.ts
lines 136-163): a thrown call is caught and yields `[]`; a `null` or
empty content fails the `if (!aiResponse)` truthiness check and yields
`[]`; a `JSON.parse` failure is caught and yields `[]`; a parsed
non-array yields `[]`; an array is returned as-is.  `jsonParse` is the
oracle for the host `JSON.parse` on arbitrary documents. -/
def processGitDiffResult (jsonParse : String → Option JSValue) (o : ChatOutcome) :
    List JSValue :=
  match o with
  | .threw _ => []
  | .responded none => []
  | .responded (some content) =>
    if content = "" then []
    else
      match jsonParse content with
      | none => []
      | some (.arr xs) => xs
      | some _ => []

theorem splitNl_ne_nil (cs : List Char) : splitNl cs ≠ [] := by
  induction cs with
  | nil => simp [splitNl]
  | cons c cs ih =>
    simp only [splitNl]
    split
    · simp
    · cases h : splitNl cs with
      | nil => simp
      | cons l ls => simp [h]

theorem not_nl_mem_splitNl (cs : List Char) :
    ∀ l ∈ splitNl cs, '\n' ∉ l := by
  induction cs with
  | nil =>
    intro l hl
    simp [splitNl] at hl
    simp [hl]
  | cons c cs ih =>
    intro l hl
    simp only [splitNl] at hl
    by_cases hc : c = '\n'
    · simp [hc] at hl
      rcases hl with h | h
      · simp [h]
      · exact ih l h
    · simp [hc] at hl
      cases h : splitNl cs with
      | nil => exact absurd h (splitNl_ne_nil cs)
      | cons m ms =>
        rw [h] at hl
        simp at hl
        rcases hl with h1 | h1
        · subst h1
          intro hmem
          rcases List.mem_cons.mp hmem with h2 | h2
          · exact hc h2.symm
          · exact ih m (h ▸ List.mem_cons_self m ms) h2
        · exact ih l (h ▸ List.mem_cons_of_mem m h1)

theorem unlines_nil : unlines [] = [] := rfl

theorem unlines_cons (l : List Char) (ls : List (List Char)) :
    unlines (l :: ls) = l ++ ['\n'] ++ unlines ls := by
  simp [unlines, List.append_assoc]

theorem unlines_append (a b : List (List Char)) :
    unlines (a ++ b) = unlines a ++ unlines b := by
  simp [unlines]

theorem unlines_splitNl (cs : List Char) :
    unlines (splitNl cs) = cs ++ ['\n'] := by
  induction cs with
  | nil => simp [splitNl, unlines]
  | cons c cs ih =>
    simp only [splitNl]
    by_cases hc : c = '\n'
    · simp only [hc, if_pos rfl]
      simp [unlines_cons, unlines_nil, ih]
    · simp only [if_neg hc]
      cases h : splitNl cs with
      | nil => exact absurd h (splitNl_ne_nil cs)
      | cons m ms =>
        rw [h] at ih
        simp [unlines_cons, ← ih]

theorem hasContent_append_nl (cs : List Char) :
    hasContent (cs ++ ['\n']) = hasContent cs := by
  simp [hasContent, List.any_append]

theorem unlines_eq_append_nl (ms : List (List Char)) (h : unlines ms ≠ []) :
    ∃ p, unlines ms = p ++ ['\n'] := by
  induction ms with
  | nil => simp [unlines_nil] at h
  | cons l ls ih =>
    by_cases hls : unlines ls = []
    · refine ⟨l, ?_⟩
      simp [unlines_cons, hls]
    · obtain ⟨p, hp⟩ := ih hls
      refine ⟨l ++ ['\n'] ++ p, ?_⟩
      simp [unlines_cons, hp, List.append_assoc]

theorem chunkLoop_join (S : Nat) (ls : List (List Char)) :
    ∀ cur : List Char, ∃ w : List Char,
      (chunkLoop S cur ls).flatten ++ w = cur ++ unlines ls ∧ hasContent w = false := by
  induction ls with
  | nil =>
    intro cur
    by_cases h : hasContent cur
    · refine ⟨[], ?_, ?_⟩
      · simp [chunkLoop, h, unlines_nil]
      · simp [hasContent]
    · refine ⟨cur, ?_, ?_⟩
      · simp only [Bool.not_eq_true] at h
        simp [chunkLoop, h, unlines_nil]
      · simpa using h
  | cons l rest ih =>
    intro cur
    simp only [chunkLoop]
    by_cases h : cur.length + l.length > S
    · obtain ⟨w, hw, hcw⟩ := ih (l ++ ['\n'])
      refine ⟨w, ?_, hcw⟩
      simp only [if_pos h, List.flatten_cons, unlines_cons]
      rw [List.append_assoc, hw]
    · obtain ⟨w, hw, hcw⟩ := ih (cur ++ l ++ ['\n'])
      refine ⟨w, ?_, hcw⟩
      simp only [if_neg h]
      rw [hw]
      simp [unlines_cons, List.append_assoc]

theorem chunkLoop_inv (S : Nat) (lines : List (List Char)) :
    ∀ (ls : List (List Char)) (cur : List Char),
      (∀ l ∈ ls, l ∈ lines) →
      (cur.length ≤ S + 1 ∨ ∃ l ∈ lines, cur = l ++ ['\n'] ∧ S < l.length) →
      ∀ c ∈ chunkLoop S cur ls,
        c.length ≤ S + 1 ∨ ∃ l ∈ lines, c = l ++ ['\n'] ∧ S < l.length := by
  intro ls
  induction ls with
  | nil =>
    intro cur _ hcur c hc
    simp only [chunkLoop] at hc
    split at hc
    · simp at hc
      exact hc ▸ hcur
    · simp at hc
  | cons l rest ih =>
    intro cur hmem hcur c hc
    simp only [chunkLoop] at hc
    by_cases h : cur.length + l.length > S
    · rw [if_pos h] at hc
      rcases List.mem_cons.mp hc with h1 | h1
      · exact h1 ▸ hcur
      · refine ih (l ++ ['\n']) (fun x hx => hmem x (List.mem_cons_of_mem l hx)) ?_ c h1
        by_cases hl : l.length ≤ S
        · left
          simp [Nat.add_le_add_iff_right, hl]
        · right
          exact ⟨l, hmem l (List.mem_cons_self l rest), rfl, Nat.lt_of_not_le hl⟩
    · rw [if_neg h] at hc
      refine ih (cur ++ l ++ ['\n']) (fun x hx => hmem x (List.mem_cons_of_mem l hx)) ?_ c hc
      left
      have : cur.length + l.length ≤ S := Nat.le_of_not_lt h
      simp only [List.length_append, List.length_singleton]
      omega

theorem chunkLoop_lineAligned (S : Nat) :
    ∀ (ls : List (List Char)) (seg : List (List Char)),
      ∀ c ∈ chunkLoop S (unlines seg) ls,
        ∃ ms, c = unlines ms ∧ ms <:+: seg ++ ls := by
  intro ls
  induction ls with
  | nil =>
    intro seg c hc
    simp only [chunkLoop] at hc
    split at hc
    · simp at hc
      exact ⟨seg, hc, by simp⟩
    · simp at hc
  | cons l rest ih =>
    intro seg c hc
    simp only [chunkLoop] at hc
    by_cases h : (unlines seg).length + l.length > S
    · rw [if_pos h] at hc
      rcases List.mem_cons.mp hc with h1 | h1
      · exact ⟨seg, h1, ⟨[], l :: rest, by simp⟩⟩
      · have hl : l ++ ['\n'] = unlines [l] := by simp [unlines_cons, unlines_nil]
        have h1' : c ∈ chunkLoop S (unlines [l]) rest := by rw [← hl]; exact h1
        obtain ⟨ms, hms, hinf⟩ := ih [l] c h1'
        refine ⟨ms, hms, hinf.trans ⟨seg, [], by simp⟩⟩
    · rw [if_neg h] at hc
      have hl : unlines seg ++ l ++ ['\n'] = unlines (seg ++ [l]) := by
        simp [unlines_append, unlines_cons, unlines_nil, List.append_assoc]
      have hc' : c ∈ chunkLoop S (unlines (seg ++ [l])) rest := by rw [← hl]; exact hc
      obtain ⟨ms, hms, hinf⟩ := ih (seg ++ [l]) c hc'
      refine ⟨ms, hms, ?_⟩
      simpa [List.append_assoc] using hinf

theorem chunkLoop_small (S : Nat) :
    ∀ (ls : List (List Char)) (cur : List Char),
      cur.length + (unlines ls).length ≤ S + 1 →
      chunkLoop S cur ls =
        if hasContent (cur ++ unlines ls) then [cur ++ unlines ls] else [] := by
  intro ls
  induction ls with
  | nil =>
    intro cur _
    simp [chunkLoop, unlines_nil]
  | cons l rest ih =>
    intro cur hlen
    have hrest : (unlines (l :: rest)).length = l.length + 1 + (unlines rest).length := by
      simp [unlines_cons]
      omega
    have hno : ¬ cur.length + l.length > S := by omega
    simp only [chunkLoop, if_neg hno]
    have := ih (cur ++ l ++ ['\n']) (by simp only [List.length_append, List.length_singleton]; omega)
    rw [this]
    simp [unlines_cons, List.append_assoc]

theorem mk_data_eq (a b : String) (h : a.data = b.data) : a = b := by
  cases a
  cases b
  exact congrArg String.mk h

/-- Claim C5: the stated bound `length ≤ S` is false on the code; this
closed instance refutes it.  For `diff = "ab\ncd"` and `maxSize = 5`
the function returns the single chunk `"ab\ncd\n"` of length 6 > 5,
whose two lines both have length 2 ≤ 5, so the chunk is not a single
line longer than `maxSize`. -/
theorem claim_C5_counterexample :
    splitDiffIntoChunks "ab\ncd" 5 = ["ab\ncd\n"] ∧
    ("ab\ncd\n" : String).length > 5 ∧
    splitNl ("ab\ncd" : String).data = [['a', 'b'], ['c', 'd']] ∧
    (∀ l ∈ splitNl ("ab\ncd" : String).data, l.length ≤ 5) := by
  refine ⟨by decide, by decide, by decide, by decide⟩

/-- Claim C5 (amended): for every diff `D` and `S > 0`, each chunk of
`splitDiffIntoChunks D S` has length at most `S + 1` (not `S`: the
separating newline is appended after the length check), except that a
chunk consisting of a single line longer than `S` may exceed that; a
line of `D` is never split across two chunks (each chunk is the
newline-terminated join of a contiguous run of `D`'s lines); and every
chunk is either empty (emitted just before a line longer than `S`) or
ends with a newline. -/
theorem claim_C5_chunk_bounds (D : String) (S : Nat) (hS : 0 < S) :
    ∀ c ∈ splitDiffIntoChunks D S,
      (c.length ≤ S + 1 ∨
        ∃ l ∈ splitNl D.data, c.data = l ++ ['\n'] ∧ S < l.length ∧ '\n' ∉ l) ∧
      (∃ ms, c.data = unlines ms ∧ ms <:+: splitNl D.data) ∧
      (c ≠ "" → ∃ p, c.data = p ++ ['\n']) := by
  intro c hc
  obtain ⟨d, hd, rfl⟩ := List.mem_map.mp hc
  have hdata : (String.mk d).data = d := rfl
  refine ⟨?_, ?_, ?_⟩
  · have := chunkLoop_inv S (splitNl D.data) (splitNl D.data) []
      (fun l hl => hl) (Or.inl (by simp)) d hd
    rcases this with h | ⟨l, hl, heq, hlen⟩
    · left
      exact h
    · right
      exact ⟨l, hl, heq, hlen, not_nl_mem_splitNl D.data l hl⟩
  · have := chunkLoop_lineAligned S (splitNl D.data) [] d hd
    obtain ⟨ms, hms, hinf⟩ := this
    exact ⟨ms, hms, by simpa using hinf⟩
  · intro hne
    obtain ⟨ms, hms, _⟩ := chunkLoop_lineAligned S (splitNl D.data) [] d hd
    have hdne : unlines ms ≠ [] := by
      rw [← hms]
      intro h
      exact hne (mk_data_eq _ _ (by simp [hdata, h]))
    obtain ⟨p, hp⟩ := unlines_eq_append_nl ms hdne
    exact ⟨p, by rw [hdata, hms, hp]⟩

/-- Witness for C5 at the concrete diff `"abc"` with `maxSize = 2`:
the oversized single-line chunk `"abc\n"` is produced and satisfies
every conclusion of the amended claim. -/
theorem claim_C5_chunk_bounds_witness :
    0 < 2 ∧ "abc\n" ∈ splitDiffIntoChunks "abc" 2 ∧
      ((("abc\n" : String).length ≤ 2 + 1 ∨
          ∃ l ∈ splitNl ("abc" : String).data,
            ("abc\n" : String).data = l ++ ['\n'] ∧ 2 < l.length ∧ '\n' ∉ l) ∧
        (∃ ms, ("abc\n" : String).data = unlines ms ∧ ms <:+: splitNl ("abc" : String).data) ∧
        (("abc\n" : String) ≠ "" → ∃ p, ("abc\n" : String).data = p ++ ['\n'])) :=
  ⟨by decide, by decide, claim_C5_chunk_bounds "abc" 2 (by decide) "abc\n" (by decide)⟩

/-- Claim C6: refuted as stated.  The whitespace-only diff `" "` is
non-empty and shorter than `S = 5`, yet yields zero chunks (the final
`currentChunk.trim()` guard drops it), so concatenation gives `""`,
which does not reproduce `" "` up to trailing-newline normalization. -/
theorem claim_C6_counterexample :
    splitDiffIntoChunks " " 5 = [] ∧ (" " : String) ≠ "" ∧
      (" " : String).length < 5 ∧
      ((splitDiffIntoChunks " " 5).map String.data).flatten = [] := by
  refine ⟨by decide, by decide, by decide, by decide⟩

/-- Claim C6 (amended): concatenating the chunks reproduces `D` up to a
dropped whitespace-only tail and trailing-newline normalization: the
concatenation extended by some all-whitespace `w` equals `D ++ "\n"`;
`splitDiffIntoChunks "" S` returns zero chunks; and any non-empty diff
shorter than `S` containing at least one non-whitespace character
yields exactly one chunk equal to the diff plus a trailing newline. -/
theorem claim_C6_join (D : String) (S : Nat) (hS : 0 < S) :
    (∃ w : List Char,
        ((splitDiffIntoChunks D S).map String.data).flatten ++ w = D.data ++ ['\n'] ∧
        hasContent w = false) ∧
    splitDiffIntoChunks "" S = [] ∧
    (D ≠ "" → D.length < S → hasContent D.data = true →
      splitDiffIntoChunks D S = [D ++ "\n"]) := by
  refine ⟨?_, ?_, ?_⟩
  · have hcomp : (String.data ∘ fun c : List Char => (⟨c⟩ : String)) = id := funext fun _ => rfl
    have hmap : (splitDiffIntoChunks D S).map String.data = chunkLoop S [] (splitNl D.data) := by
      simp [splitDiffIntoChunks, List.map_map, hcomp]
    obtain ⟨w, hw, hcw⟩ := chunkLoop_join S (splitNl D.data) []
    refine ⟨w, ?_, hcw⟩
    rw [hmap, hw, unlines_splitNl]
    simp
  · have h0 : ¬ (([] : List Char).length + ([] : List Char).length > S) := by simp
    have h1 : chunkLoop S ([] ++ [] ++ ['\n']) [] = [] := by
      simp only [chunkLoop]
      have : hasContent ['\n'] = false := by decide
      simp [this]
    have h2 : chunkLoop S [] [[]] = [] := by
      simp only [chunkLoop]
      rw [if_neg h0]
      exact h1
    show List.map (fun c => (⟨c⟩ : String)) (chunkLoop S [] (splitNl ("" : String).data)) = []
    have h3 : splitNl ("" : String).data = [[]] := rfl
    rw [h3, h2]
    rfl
  · intro _ hlen hcont
    have hsmall := chunkLoop_small S (splitNl D.data) [] (by
      rw [unlines_splitNl]
      simp only [List.length_nil, List.length_append, List.length_singleton]
      have : D.length = D.data.length := rfl
      omega)
    rw [List.nil_append] at hsmall
    rw [unlines_splitNl] at hsmall
    rw [hasContent_append_nl, hcont, if_pos rfl] at hsmall
    simp only [splitDiffIntoChunks, hsmall, List.map_cons, List.map_nil]
    have : (String.mk (D.data ++ ['\n'])) = D ++ "\n" :=
      mk_data_eq _ _ (by rw [String.data_append])
    rw [this]

/-- Witness for C6 at the concrete diff `"abc"` with `maxSize = 5`:
the diff is non-empty, shorter than 5, has content, and yields exactly
one chunk `"abc\n"`. -/
theorem claim_C6_join_witness :
    (("abc" : String) ≠ "" ∧ ("abc" : String).length < 5 ∧
        hasContent ("abc" : String).data = true) ∧
      splitDiffIntoChunks "abc" 5 = ["abc" ++ "\n"] :=
  ⟨⟨by decide, by decide, by decide⟩,
    (claim_C6_join "abc" 5 (by decide)).2.2 (by decide) (by decide) (by decide)⟩

theorem jsonStringBody_escape (e d : Char) (rest : List Char)
    (hu : e ≠ 'u') (hd : decodeEscape e = some d) :
    jsonStringBody ('\\' :: e :: rest) = (jsonStringBody rest).map (d :: ·) := by
  rw [jsonStringBody.eq_def]
  simp +decide [hu, hd]

theorem jsonStringBody_u (h3 h4 : Char) (rest : List Char) (n : Nat)
    (h : decodeHex4 '0' '0' h3 h4 = some n) :
    jsonStringBody ('\\' :: 'u' :: '0' :: '0' :: h3 :: h4 :: rest) =
      (jsonStringBody rest).map (Char.ofNat n :: ·) := by
  rw [jsonStringBody.eq_def]
  simp +decide [h]

theorem jsonStringBody_plain (c : Char) (rest : List Char)
    (h1 : c ≠ '"') (h2 : c ≠ '\\') (h3 : ¬ c.toNat < 32) :
    jsonStringBody (c :: rest) = (jsonStringBody rest).map (c :: ·) := by
  rw [jsonStringBody.eq_def]
  simp [h1, h2, h3]

theorem decodeHex4_small :
    ∀ n, n < 32 → decodeHex4 '0' '0' (hexDigitChar (n / 16)) (hexDigitChar (n % 16)) = some n := by
  decide

theorem jsonStringBody_escapeChar (c : Char) (rest : List Char) :
    jsonStringBody (jsonEscapeChar c ++ rest) = (jsonStringBody rest).map (c :: ·) := by
  by_cases h1 : c = '"'
  · subst h1
    rw [show jsonEscapeChar '"' = ['\\', '"'] from rfl]
    exact jsonStringBody_escape '"' '"' rest (by decide) (by decide)
  by_cases h2 : c = '\\'
  · subst h2
    rw [show jsonEscapeChar '\\' = ['\\', '\\'] from rfl]
    exact jsonStringBody_escape '\\' '\\' rest (by decide) (by decide)
  by_cases h3 : c = '\x08'
  · subst h3
    rw [show jsonEscapeChar '\x08' = ['\\', 'b'] from rfl]
    exact jsonStringBody_escape 'b' '\x08' rest (by decide) (by decide)
  by_cases h4 : c = '\x0c'
  · subst h4
    rw [show jsonEscapeChar '\x0c' = ['\\', 'f'] from rfl]
    exact jsonStringBody_escape 'f' '\x0c' rest (by decide) (by decide)
  by_cases h5 : c = '\n'
  · subst h5
    rw [show jsonEscapeChar '\n' = ['\\', 'n'] from rfl]
    exact jsonStringBody_escape 'n' '\n' rest (by decide) (by decide)
  by_cases h6 : c = '\x0d'
  · subst h6
    rw [show jsonEscapeChar '\x0d' = ['\\', 'r'] from rfl]
    exact jsonStringBody_escape 'r' '\x0d' rest (by decide) (by decide)
  by_cases h7 : c = '\t'
  · subst h7
    rw [show jsonEscapeChar '\t' = ['\\', 't'] from rfl]
    exact jsonStringBody_escape 't' '\t' rest (by decide) (by decide)
  by_cases h8 : c.toNat < 32
  · have he : jsonEscapeChar c =
        ['\\', 'u', '0', '0', hexDigitChar (c.toNat / 16), hexDigitChar (c.toNat % 16)] := by
      simp [jsonEscapeChar, h1, h2, h3, h4, h5, h6, h7, h8]
    rw [he]
    have hx := decodeHex4_small c.toNat h8
    have := jsonStringBody_u (hexDigitChar (c.toNat / 16)) (hexDigitChar (c.toNat % 16))
      rest c.toNat hx
    rw [Char.ofNat_toNat] at this
    exact this
  · have he : jsonEscapeChar c = [c] := by
      simp [jsonEscapeChar, h1, h2, h3, h4, h5, h6, h7, h8]
    rw [he]
    exact jsonStringBody_plain c rest h1 h2 h8

theorem jsonStringBody_roundtrip (cs : List Char) :
    jsonStringBody (cs.flatMap jsonEscapeChar ++ ['"']) = some cs := by
  induction cs with
  | nil => rfl
  | cons c cs ih =>
    rw [List.flatMap_cons, List.append_assoc, jsonStringBody_escapeChar, ih]
    rfl

theorem jsonQuote_roundtrip (s : String) : jsonParseString (jsonQuote s) = some s := by
  have hdata : (jsonQuote s).data = '"' :: (s.data.flatMap jsonEscapeChar ++ ['"']) := rfl
  have hmk : (⟨s.data⟩ : String) = s := mk_data_eq _ _ rfl
  simp [jsonParseString, hdata, jsonStringBody_roundtrip, hmk]

/-- Claim C1: refuted as stated.  On a failing command the gateway
neither raises nor returns empty text: the catch block returns
`error.message`.  Here every command throws with message
`"Command failed"`; an inventory query receives that message (not
`""`), and `createCommit`'s commit invocation returns normally with
that message instead of re-raising. -/
theorem claim_C1_counterexample :
    runCommand (fun _ => .thrown "Command failed") "git diff --name-status --relative" =
        "Command failed" ∧
    ("Command failed" : String) ≠ "" ∧
    createCommitInvoke (fun _ => .thrown "Command failed") "feat" "x" = "Command failed" :=
  ⟨rfl, by decide, rfl⟩

/-- Claim C1 (amended): `runCommand` never raises; when a command's
execution throws it catches the error, logs it, and returns the
error's message text — for every caller alike.  `createCommit`'s commit
invocation therefore completes normally with that text rather than
re-raising, and inventory callers receive the message rather than
empty text. -/
theorem claim_C1_gateway_swallows (exec : String → ExecOutcome) (cmd msg : String)
    (h : exec cmd = .thrown msg) :
    runCommand exec cmd = msg ∧
    ∀ ctype message, cmd = createCommitCmd ctype message →
      createCommitInvoke exec ctype message = msg := by
  constructor
  · simp [runCommand, h]
  · intro ctype message hcmd
    simp [createCommitInvoke, runCommand, ← hcmd, h]

/-- Witness for C1 at a concrete failing executor and the concrete
commit command for type `feat`, message `x`. -/
theorem claim_C1_gateway_swallows_witness :
    runCommand (fun _ => .thrown "boom") (createCommitCmd "feat" "x") = "boom" ∧
    ∀ ctype message, createCommitCmd "feat" "x" = createCommitCmd ctype message →
      createCommitInvoke (fun _ => .thrown "boom") ctype message = "boom" :=
  claim_C1_gateway_swallows (fun _ => .thrown "boom") (createCommitCmd "feat" "x") "boom" rfl

/-- Claim C7: the code contradicts the claim (and the repository's own
test, which expects `execSync` to receive
`git commit -m "feat: add new feature"`).  `JSON.stringify` wraps the
message in quote characters and the subsequent `.replace(/"/g, '\\"')`
escapes those wrapping quotes too, so the shell passes the quotes
through as literal characters: the commit message for
`("feat", "add parser")` is `"feat: add parser"` *including* the two
quote characters, not `feat: add parser`. -/
theorem claim_C7_quoted_message :
    createCommitCmd "feat" "add parser" =
      "git commit -m \"\\\"feat: add parser\\\"\"" ∧
    shellFields (createCommitCmd "feat" "add parser") =
      some ["git", "commit", "-m", "\"feat: add parser\""] ∧
    ("\"feat: add parser\"" : String) ≠ "feat: add parser" :=
  ⟨by decide, by decide, by decide⟩

/-- Claim C10: confirmed.  `JSON.parse (JSON.stringify s) = s` for
every string `s`, and whenever the selector returns values offered in
the choices array (inquirer returns selected choice values), the
prompt returns exactly the original path strings of the selected
entries. -/
theorem claim_C10_selection_roundtrip :
    (∀ s : String, jsonParseString (jsonQuote s) = some s) ∧
    ∀ (allChanges : List FileChange) (pick : List PromptChoice → List String),
      (∀ v ∈ pick (fileChoices allChanges), ∃ f ∈ allChanges, v = jsonQuote f.value) →
      ∃ paths : List String,
        promptFileSelection allChanges pick = some paths ∧
        paths.map jsonQuote = pick (fileChoices allChanges) ∧
        ∀ p ∈ paths, ∃ f ∈ allChanges, p = f.value := by
  constructor
  · exact jsonQuote_roundtrip
  · intro allChanges pick
    unfold promptFileSelection
    generalize pick (fileChoices allChanges) = l
    induction l with
    | nil => exact fun _ => ⟨[], rfl, rfl, by simp⟩
    | cons v vs ih =>
      intro hv
      obtain ⟨f, hf, hfv⟩ := hv v (List.mem_cons_self v vs)
      obtain ⟨paths, hp, hq, hmem⟩ := ih fun x hx => hv x (List.mem_cons_of_mem v hx)
      refine ⟨f.value :: paths, ?_, ?_, ?_⟩
      · rw [List.mapM_cons, hfv, jsonQuote_roundtrip, hp]
        rfl
      · simp [hq, hfv]
      · intro p hp2
        rcases List.mem_cons.mp hp2 with h | h
        · exact ⟨f, hf, h⟩
        · exact hmem p h

theorem commitLoop_eq_filterMap (env : GitEnv) :
    ∀ (gs : List CommitGroup) (idx : List String),
      commitLoop env idx gs = gs.filterMap (groupCommit env) := by
  intro gs
  induction gs with
  | nil => intro idx; rfl
  | cons g gs ih =>
    intro idx
    cases h : processGroup env idx g with
    | mk idx2 copt =>
      have hg : groupCommit env g = copt := by
        have heq : stagePhase env [] g = processGroup env idx g := rfl
        rw [groupCommit, heq, h]
      simp only [commitLoop, h]
      cases copt with
      | none => simp [List.filterMap_cons, hg, ih idx2]
      | some c => simp [List.filterMap_cons, hg, ih idx2]

theorem filterMap_length_lt {α β : Type} (f : α → Option β) :
    ∀ l : List α, (∃ a ∈ l, f a = none) → (l.filterMap f).length < l.length := by
  intro l
  induction l with
  | nil =>
    rintro ⟨a, ha, _⟩
    simp at ha
  | cons x xs ih =>
    rintro ⟨a, ha, hfa⟩
    cases hfx : f x with
    | none =>
      simp only [List.filterMap_cons, hfx, List.length_cons]
      exact Nat.lt_succ_of_le (List.length_filterMap_le f xs)
    | some b =>
      rcases List.mem_cons.mp ha with rfl | hmem
      · rw [hfa] at hfx
        cases hfx
      · simp only [List.filterMap_cons, hfx, List.length_cons]
        exact Nat.succ_lt_succ (ih ⟨a, hmem, hfa⟩)

theorem groupCommit_files (env : GitEnv) (g : CommitGroup) (c : CommitRec)
    (h : groupCommit env g = some c) :
    c.files = (extractFilePaths g.hunks).foldl (stageFile env) [] := by
  unfold groupCommit stagePhase at h
  by_cases h1 : g.hunks.isEmpty
  · simp [h1] at h
  · by_cases h2 : (extractFilePaths g.hunks).isEmpty
    · simp [h1, h2] at h
    · by_cases h3 : ((extractFilePaths g.hunks).foldl (stageFile env) []).isEmpty
      · simp [h1, h2, h3] at h
      · simp [h1, h2, h3] at h
        rw [← h]

theorem commitLoopEntries_all_nil (env : GitEnv) :
    ∀ (gs : List CommitGroup) (idx : List String),
      ∀ e ∈ commitLoopEntries env idx gs, e = ([] : List String) := by
  intro gs
  induction gs with
  | nil =>
    intro idx e he
    simp [commitLoopEntries] at he
  | cons g gs ih =>
    intro idx e he
    simp only [commitLoopEntries] at he
    rcases List.mem_cons.mp he with h | h
    · exact h
    · exact ih _ e h

/-- Claim C2: confirmed.  For every environment, incoming index and
group array, the confirmed commit phase issues exactly the commits of
the groups in array order (`filterMap` preserves order); the number of
commits is at most the number of groups, and strictly fewer when any
group is skipped; and any group whose hunks resolve to zero file paths
or whose staging leaves the index empty produces no commit (the total
loop continues with the next group, raising nothing). -/
theorem claim_C2_order_and_skips (env : GitEnv) (idx : List String)
    (groups : List CommitGroup) :
    confirmedCommitPhase env idx groups = groups.filterMap (groupCommit env) ∧
    (confirmedCommitPhase env idx groups).length ≤ groups.length ∧
    ((∃ g ∈ groups, groupCommit env g = none) →
      (confirmedCommitPhase env idx groups).length < groups.length) ∧
    (∀ g : CommitGroup, extractFilePaths g.hunks = [] → groupCommit env g = none) ∧
    (∀ g : CommitGroup, (extractFilePaths g.hunks).foldl (stageFile env) [] = [] →
      groupCommit env g = none) := by
  have h1 : confirmedCommitPhase env idx groups = groups.filterMap (groupCommit env) :=
    commitLoop_eq_filterMap env groups (gitResetIndex idx)
  refine ⟨h1, ?_, ?_, ?_, ?_⟩
  · rw [h1]
    exact List.length_filterMap_le _ _
  · intro hex
    rw [h1]
    exact filterMap_length_lt _ groups hex
  · intro g hext
    by_cases hh : g.hunks.isEmpty
    · simp [groupCommit, stagePhase, hh]
    · simp [groupCommit, stagePhase, hh, hext]
  · intro g hst
    by_cases hh : g.hunks.isEmpty
    · simp [groupCommit, stagePhase, hh]
    · by_cases hf : (extractFilePaths g.hunks).isEmpty
      · simp [groupCommit, stagePhase, hh, hf]
      · simp [groupCommit, stagePhase, hh, hf, hst]

/-- Witness for C2: two concrete groups, the second with no hunks; the
skip makes the commit count strictly smaller than the group count. -/
theorem claim_C2_order_and_skips_witness :
    (∃ g ∈ [exampleGroupA, exampleGroupB], groupCommit exampleEnv g = none) ∧
    (confirmedCommitPhase exampleEnv [] [exampleGroupA, exampleGroupB]).length <
      [exampleGroupA, exampleGroupB].length :=
  ⟨⟨exampleGroupB, by decide, by decide⟩,
    (claim_C2_order_and_skips exampleEnv [] [exampleGroupA, exampleGroupB]).2.2.1
      ⟨exampleGroupB, by decide, by decide⟩⟩

/-- Claim C3: confirmed.  At every group's staging entry (right after
that iteration's `git restore --staged .`) the index is empty; the
commit output is independent of whatever was staged when the loop
began (in particular of the state right after the user confirms and
the index is reset); and every issued commit's files are exactly what
its own group stages from an empty index, so nothing staged for group
`i` is attributed to group `i+1`'s commit. -/
theorem claim_C3_reset_and_isolation (env : GitEnv) (idx : List String)
    (groups : List CommitGroup) :
    (∀ e ∈ commitLoopEntries env idx groups, e = ([] : List String)) ∧
    commitLoop env idx groups = commitLoop env [] groups ∧
    (∀ c ∈ commitLoop env idx groups,
      ∃ g ∈ groups, groupCommit env g = some c ∧
        c.files = (extractFilePaths g.hunks).foldl (stageFile env) []) := by
  refine ⟨commitLoopEntries_all_nil env groups idx, ?_, ?_⟩
  · rw [commitLoop_eq_filterMap env groups idx, commitLoop_eq_filterMap env groups []]
  · intro c hc
    rw [commitLoop_eq_filterMap env groups idx] at hc
    obtain ⟨g, hg, hgc⟩ := List.mem_filterMap.mp hc
    exact ⟨g, hg, hgc, groupCommit_files env g c hgc⟩

/-- Witness for C3: a dirty incoming index `["left.ts"]` leaks into no
entry state and no commit. -/
theorem claim_C3_reset_and_isolation_witness :
    (∀ e ∈ commitLoopEntries exampleEnv ["left.ts"] [exampleGroupA, exampleGroupB],
      e = ([] : List String)) ∧
    commitLoop exampleEnv ["left.ts"] [exampleGroupA, exampleGroupB] =
      commitLoop exampleEnv [] [exampleGroupA, exampleGroupB] ∧
    (∀ c ∈ commitLoop exampleEnv ["left.ts"] [exampleGroupA, exampleGroupB],
      ∃ g ∈ [exampleGroupA, exampleGroupB], groupCommit exampleEnv g = some c ∧
        c.files = (extractFilePaths g.hunks).foldl (stageFile exampleEnv) []) :=
  claim_C3_reset_and_isolation exampleEnv ["left.ts"] [exampleGroupA, exampleGroupB]

theorem validatePatch_index (env : PatchEnv) (st : FsState) (p : String) :
    ((validatePatch env st p).2).index = st.index := by
  unfold validatePatch
  by_cases h : env.writeOk (tempCheckName env) <;> simp [h]

/-- Claim C4: confirmed.  When the newline-joined hunk text fails
validation, `stageFilesForCommit` performs no apply at all: the index
after the call equals the index before it (and `validatePatch` itself
never mutates the index on any path).  The model is total, so the call
returns without raising. -/
theorem claim_C4_invalid_patch_stages_nothing (env : PatchEnv) (st : FsState)
    (hunks : List String)
    (hinvalid : (validatePatch env st (String.intercalate "\n" hunks)).1 = false) :
    (stageFilesForCommit env st hunks).index = st.index ∧
    (∀ p, ((validatePatch env st p).2).index = st.index) := by
  refine ⟨?_, fun p => validatePatch_index env st p⟩
  unfold stageFilesForCommit
  by_cases hh : hunks.isEmpty
  · simp [hh]
  · simp [hh, hinvalid, validatePatch_index]

/-- Witness for C4: a concrete environment whose dry-run check fails;
the index `["a.ts"]` is untouched. -/
theorem claim_C4_invalid_patch_stages_nothing_witness :
    (validatePatch examplePatchEnv ⟨["a.ts"], []⟩
        (String.intercalate "\n" ["h1", "h2"])).1 = false ∧
    (stageFilesForCommit examplePatchEnv ⟨["a.ts"], []⟩ ["h1", "h2"]).index =
      (⟨["a.ts"], []⟩ : FsState).index :=
  ⟨by decide,
    (claim_C4_invalid_patch_stages_nothing examplePatchEnv ⟨["a.ts"], []⟩ ["h1", "h2"]
      (by decide)).1⟩

theorem insertPath_erase (l : List String) (t : String) (h : t ∉ l) :
    (insertPath l t).erase t = l := by
  unfold insertPath
  rw [if_neg h, List.erase_append_right [t] h]
  simp

theorem validatePatch_tempFiles (env : PatchEnv) (st : FsState) (p : String)
    (h : tempCheckName env ∉ st.tempFiles) :
    ((validatePatch env st p).2).tempFiles = st.tempFiles := by
  unfold validatePatch
  by_cases hw : env.writeOk (tempCheckName env)
  · simp [hw, insertPath_erase _ _ h]
  · simp [hw, List.erase_of_not_mem h]

/-- Claim C9: confirmed.  Provided the timestamped temp names are
fresh (they do not pre-exist), both `validatePatch` and
`stageFilesForCommit` leave the set of temporary files exactly as it
was on every exit path: write failure, validation failure, apply
failure, and success alike. -/
theorem claim_C9_temp_cleanup (env : PatchEnv) (st : FsState) (p : String)
    (hunks : List String)
    (h1 : tempCheckName env ∉ st.tempFiles) (h2 : tempApplyName env ∉ st.tempFiles) :
    ((validatePatch env st p).2).tempFiles = st.tempFiles ∧
    (stageFilesForCommit env st hunks).tempFiles = st.tempFiles := by
  refine ⟨validatePatch_tempFiles env st p h1, ?_⟩
  unfold stageFilesForCommit
  by_cases hh : hunks.isEmpty
  · simp [hh]
  · have hv := validatePatch_tempFiles env st (String.intercalate "\n" hunks) h1
    cases hval : (validatePatch env st (String.intercalate "\n" hunks)).1 with
    | false => simp [hh, hval, hv]
    | true =>
      by_cases hw : env.writeOk (tempApplyName env)
      · simp [hh, hval, hw, hv, insertPath_erase _ _ h2]
      · simp [hh, hval, hw, hv, List.erase_of_not_mem h2]

/-- Witness for C9: concrete state with an unrelated temp file, a
failing check environment; both calls preserve the temp-file set. -/
theorem claim_C9_temp_cleanup_witness :
    (tempCheckName examplePatchEnv ∉ (["other.patch"] : List String) ∧
      tempApplyName examplePatchEnv ∉ (["other.patch"] : List String)) ∧
    ((validatePatch examplePatchEnv ⟨["a.ts"], ["other.patch"]⟩ "p").2).tempFiles =
      ["other.patch"] ∧
    (stageFilesForCommit examplePatchEnv ⟨["a.ts"], ["other.patch"]⟩ ["h"]).tempFiles =
      ["other.patch"] :=
  ⟨⟨by decide, by decide⟩,
    claim_C9_temp_cleanup examplePatchEnv ⟨["a.ts"], ["other.patch"]⟩ "p" ["h"]
      (by decide) (by decide)⟩

/-- Claim C8: confirmed.  A thrown classifier call, a null or empty
payload, an unparseable payload, and a parseable non-array payload all
degrade to the empty group list (the embedding is total, so no
exception reaches the orchestrator), and with zero groups the
orchestrator ends the run with zero commits. -/
theorem claim_C8_classifier_degrades (jsonParse : String → Option JSValue) :
    (∀ msg, processGitDiffResult jsonParse (.threw msg) = []) ∧
    processGitDiffResult jsonParse (.responded none) = [] ∧
    processGitDiffResult jsonParse (.responded (some "")) = [] ∧
    (∀ content, jsonParse content = none →
      processGitDiffResult jsonParse (.responded (some content)) = []) ∧
    (∀ content v, jsonParse content = some v → (∀ xs, v ≠ JSValue.arr xs) →
      processGitDiffResult jsonParse (.responded (some content)) = []) ∧
    (∀ (env : GitEnv) (idx : List String) (confirm : Bool),
      orchestratorCommits env idx [] confirm = []) := by
  refine ⟨fun msg => rfl, rfl, rfl, ?_, ?_, ?_⟩
  · intro content h
    by_cases hc : content = ""
    · simp [processGitDiffResult, hc]
    · simp [processGitDiffResult, hc, h]
  · intro content v h hv
    by_cases hc : content = ""
    · simp [processGitDiffResult, hc]
    · cases v with
      | arr xs => exact absurd rfl (hv xs)
      | null => simp [processGitDiffResult, hc, h]
      | bool b => simp [processGitDiffResult, hc, h]
      | num n => simp [processGitDiffResult, hc, h]
      | str s => simp [processGitDiffResult, hc, h]
      | obj fields => simp [processGitDiffResult, hc, h]
  · intro env idx confirm
    simp [orchestratorCommits]

/-- Witness for C8: a parser returning a non-array object and a parser
that fails both yield zero groups at concrete payloads. -/
theorem claim_C8_classifier_degrades_witness :
    processGitDiffResult (fun _ => some (JSValue.obj []))
        (.responded (some "not an array")) = [] ∧
    processGitDiffResult (fun _ => none) (.responded (some "bad json")) = [] :=
  ⟨(claim_C8_classifier_degrades (fun _ => some (JSValue.obj []))).2.2.2.2.1
      "not an array" (JSValue.obj []) rfl (fun xs h => JSValue.noConfusion h),
    (claim_C8_classifier_degrades (fun _ => none)).2.2.2.1 "bad json" rfl⟩

/-- Witness for C10: one change whose path is `a "b.ts` (it contains a
quote and a space) offered and selected; the prompt returns exactly
that path. -/
theorem claim_C10_selection_roundtrip_witness :
    jsonParseString (jsonQuote "a \"b.ts") = some "a \"b.ts" ∧
    ∃ paths : List String,
      promptFileSelection [⟨"a \"b.ts", "a \"b.ts", "M"⟩]
          (fun cs => cs.map PromptChoice.value) = some paths ∧
      paths.map jsonQuote =
        (fun cs => cs.map PromptChoice.value) (fileChoices [⟨"a \"b.ts", "a \"b.ts", "M"⟩]) ∧
      ∀ p ∈ paths, ∃ f ∈ [(⟨"a \"b.ts", "a \"b.ts", "M"⟩ : FileChange)], p = f.value :=
  ⟨claim_C10_selection_roundtrip.1 "a \"b.ts",
    claim_C10_selection_roundtrip.2 [⟨"a \"b.ts", "a \"b.ts", "M"⟩]
      (fun cs => cs.map PromptChoice.value) (by decide)⟩

end Gitsage
